import Mathlib

/-!
Verification development for the `random-draw-ton` repository: a pooled-stake
lottery contract on TON.  The repository ships a TypeScript wrapper
(`wrappers/RandomWin.ts`), a deploy script and a conformance test suite; the
contract itself (`contracts/random_win.tolk`) is not part of the given sources,
so the state machine is modelled from the specification's observable contract
(opcodes, storage layout, error codes, test-visible behaviour).  The wrapper's
serialization functions are embedded from `wrappers/RandomWin.ts` directly.
-/

namespace RandomDraw

/-! ## Generic association-list maps

TON dictionaries are key-unique associative containers; the spec (§3, Design
Notes) models them as ordinary key-unique maps.  We embed them as association
lists with the operations the contract needs. -/

def lookupKey {α β : Type} [DecidableEq α] : List (α × β) → α → Option β
  | [], _ => none
  | (k', v') :: rest, k => if k' = k then some v' else lookupKey rest k

def setEntry {α β : Type} [DecidableEq α] : List (α × β) → α → β → List (α × β)
  | [], k, v => [(k, v)]
  | (k', v') :: rest, k, v =>
      if k' = k then (k, v) :: rest else (k', v') :: setEntry rest k v

def eraseKey {α β : Type} [DecidableEq α] (ps : List (α × β)) (k : α) : List (α × β) :=
  ps.filter (fun p => decide (p.1 ≠ k))

theorem lookupKey_setEntry_self {α β : Type} [DecidableEq α]
    (ps : List (α × β)) (k : α) (v : β) : lookupKey (setEntry ps k v) k = some v := by
  induction ps with
  | nil => simp [setEntry, lookupKey]
  | cons hd tl ih =>
    obtain ⟨k', v'⟩ := hd
    by_cases hk : k' = k
    · simp [setEntry, hk, lookupKey]
    · simp [setEntry, hk, lookupKey, ih]

theorem lookupKey_setEntry_ne {α β : Type} [DecidableEq α]
    (ps : List (α × β)) (k j : α) (v : β) (h : k ≠ j) :
    lookupKey (setEntry ps k v) j = lookupKey ps j := by
  induction ps with
  | nil => simp [setEntry, lookupKey, h]
  | cons hd tl ih =>
    obtain ⟨k', v'⟩ := hd
    by_cases hk : k' = k
    · subst hk
      simp [setEntry, lookupKey, h]
    · simp [setEntry, hk, lookupKey, ih]

theorem lookupKey_eraseKey_self {α β : Type} [DecidableEq α]
    (ps : List (α × β)) (k : α) : lookupKey (eraseKey ps k) k = none := by
  induction ps with
  | nil => simp [eraseKey, lookupKey]
  | cons hd tl ih =>
    obtain ⟨k', v'⟩ := hd
    by_cases hk : k' = k
    · simpa [eraseKey, hk] using ih
    · simpa [eraseKey, hk, lookupKey] using ih

theorem lookupKey_eraseKey_ne {α β : Type} [DecidableEq α]
    (ps : List (α × β)) (k j : α) (h : k ≠ j) :
    lookupKey (eraseKey ps k) j = lookupKey ps j := by
  induction ps with
  | nil => simp [eraseKey, lookupKey]
  | cons hd tl ih =>
    obtain ⟨k', v'⟩ := hd
    by_cases hk : k' = k
    · subst hk
      have hj : k' ≠ j := h
      simpa [eraseKey, lookupKey, hj] using ih
    · by_cases hj : k' = j
      · subst hj
        simp [eraseKey, lookupKey, hk]
      · simpa [eraseKey, lookupKey, hk, hj] using ih

theorem mem_of_lookupKey {α β : Type} [DecidableEq α]
    {ps : List (α × β)} {k : α} {v : β} (h : lookupKey ps k = some v) : (k, v) ∈ ps := by
  induction ps with
  | nil => simp [lookupKey] at h
  | cons hd tl ih =>
    obtain ⟨k', v'⟩ := hd
    by_cases hk : k' = k
    · subst hk
      simp [lookupKey] at h
      subst h
      exact List.mem_cons_self _ _
    · simp [lookupKey, hk] at h
      exact List.mem_cons_of_mem _ (ih h)

theorem lookupKey_eq_none_of_not_mem {α β : Type} [DecidableEq α]
    {ps : List (α × β)} {k : α} (h : k ∉ ps.map Prod.fst) : lookupKey ps k = none := by
  induction ps with
  | nil => rfl
  | cons hd tl ih =>
    obtain ⟨k', v'⟩ := hd
    have hk : k' ≠ k := fun hc => h (List.mem_cons.mpr (Or.inl hc.symm))
    have htl : k ∉ tl.map Prod.fst := fun hc => h (List.mem_cons.mpr (Or.inr hc))
    simp [lookupKey, hk]
    exact ih htl

theorem not_mem_of_lookupKey_eq_none {α β : Type} [DecidableEq α]
    {ps : List (α × β)} {k : α} (h : lookupKey ps k = none) : k ∉ ps.map Prod.fst := by
  induction ps with
  | nil => simp
  | cons hd tl ih =>
    obtain ⟨k', v'⟩ := hd
    by_cases hk : k' = k
    · simp [lookupKey, hk] at h
    · simp [lookupKey, hk] at h
      simp only [List.map_cons, List.mem_cons]
      rintro (h1 | h2)
      · exact hk h1.symm
      · exact ih h h2

theorem lookupKey_isSome_of_mem {α β : Type} [DecidableEq α]
    {ps : List (α × β)} {k : α} (h : k ∈ ps.map Prod.fst) : (lookupKey ps k).isSome := by
  induction ps with
  | nil => simp at h
  | cons hd tl ih =>
    obtain ⟨k', v'⟩ := hd
    by_cases hk : k' = k
    · simp [lookupKey, hk]
    · simp only [List.map_cons, List.mem_cons] at h
      rcases h with h1 | h2
      · exact absurd h1.symm hk
      · simpa [lookupKey, hk] using ih h2

theorem keys_setEntry_of_mem {α β : Type} [DecidableEq α]
    (ps : List (α × β)) (k : α) (v : β) (h : k ∈ ps.map Prod.fst) :
    (setEntry ps k v).map Prod.fst = ps.map Prod.fst := by
  induction ps with
  | nil => simp at h
  | cons hd tl ih =>
    obtain ⟨k', v'⟩ := hd
    by_cases hk : k' = k
    · simp [setEntry, hk]
    · simp only [List.map_cons, List.mem_cons] at h
      rcases h with h1 | h2
      · exact absurd h1.symm hk
      · simp [setEntry, hk, ih h2]

theorem keys_setEntry_of_not_mem {α β : Type} [DecidableEq α]
    (ps : List (α × β)) (k : α) (v : β) (h : k ∉ ps.map Prod.fst) :
    (setEntry ps k v).map Prod.fst = ps.map Prod.fst ++ [k] := by
  induction ps with
  | nil => simp [setEntry]
  | cons hd tl ih =>
    obtain ⟨k', v'⟩ := hd
    have hk : k' ≠ k := fun hc => h (List.mem_cons.mpr (Or.inl hc.symm))
    have htl : k ∉ tl.map Prod.fst := fun hc => h (List.mem_cons.mpr (Or.inr hc))
    simp [setEntry, hk, ih htl]

theorem mem_setEntry {α β : Type} [DecidableEq α]
    {ps : List (α × β)} {k : α} {v : β} {p : α × β} (h : p ∈ setEntry ps k v) :
    p = (k, v) ∨ p ∈ ps := by
  induction ps with
  | nil => simpa [setEntry] using h
  | cons hd tl ih =>
    obtain ⟨k', v'⟩ := hd
    by_cases hk : k' = k
    · simp [setEntry, hk] at h
      rcases h with h | h
      · left
        simp [h]
      · exact Or.inr (List.mem_cons_of_mem _ h)
    · simp only [setEntry, hk, if_false] at h
      rcases List.mem_cons.mp h with h1 | h2
      · exact Or.inr (by simp [h1])
      · rcases ih h2 with h' | h'
        · exact Or.inl h'
        · exact Or.inr (List.mem_cons_of_mem _ h')

theorem length_setEntry_of_mem {α β : Type} [DecidableEq α]
    (ps : List (α × β)) (k : α) (v : β) (h : k ∈ ps.map Prod.fst) :
    (setEntry ps k v).length = ps.length := by
  have hkeys := keys_setEntry_of_mem ps k v h
  have h1 : (setEntry ps k v).length = ((setEntry ps k v).map Prod.fst).length := by
    simp
  have h2 : ps.length = (ps.map Prod.fst).length := by simp
  rw [h1, h2, hkeys]

namespace Contract

/-- Modelled from the spec: the `Draw` record of the absent contract source
`contracts/random_win.tolk` (spec §3): minimum entry, payout threshold,
accumulated pool, distinct-participant counter, and the per-participant
stake ledger. -/
structure Draw where
  minEntryAmount : Nat
  entryAmountLimit : Nat
  poolSum : Nat
  participantCount : Nat
  participants : List (Nat × Nat)
deriving Repr, DecidableEq

/-- Modelled from the spec: the persisted root state of the absent contract
source (spec §3): owner address, fee percent, and the map of active draws. -/
structure ContractStorage where
  owner : Nat
  feePercent : Nat
  draws : List (Nat × Draw)
deriving Repr, DecidableEq

/-- A single outbound value transfer (refund or payout). -/
structure OutMsg where
  dest : Nat
  value : Nat
deriving Repr, DecidableEq

/-- Result of processing one inbound message: the (possibly unchanged)
storage, the outbound transfers, the success flag, the application exit code
(0 on success), and whether the message was aborted at transport level. -/
structure Outcome where
  storage : ContractStorage
  out : List OutMsg
  success : Bool
  exitCode : Nat
  aborted : Bool
deriving Repr, DecidableEq

def ERROR_DRAW_ALREADY_EXISTS : Nat := 1004
def ERROR_DRAW_NOT_FOUND : Nat := 1009
def ERROR_WRONG_OP : Nat := 0xFFFF

/-- Decoded inbound message bodies (spec §4.1, §6); opcodes themselves are in
the wrapper model. -/
inductive MsgBody where
  | createDraw (queryId drawId : Nat) (minEntryAmount entryAmountLimit : Nat)
  | luckRoll (queryId drawId : Nat)
  | topUp
  | empty
  | other (opcode : Nat)
deriving Repr, DecidableEq

/-- An inbound message: decoded body, attached value, sender address. -/
structure InMsg where
  body : MsgBody
  value : Nat
  sender : Nat
deriving Repr, DecidableEq

/-- Total accumulated stake of a participant ledger. -/
def totalWeight (ps : List (Nat × Nat)) : Nat :=
  (ps.map Prod.snd).sum

/-- Modelled from the spec: stake-proportional winner selection of the absent
contract source (spec §4.4, §9 `RandomSource.weighted_pick`): walk the ledger
subtracting weights from the random draw `r`; the participant whose weight
interval contains `r` wins. -/
def pickByWeight : List (Nat × Nat) → Nat → Option Nat
  | [], _ => none
  | (a, w) :: rest, r => if r < w then some a else pickByWeight rest (r - w)

/-- Modelled from the spec: payout computation of the absent contract source
(spec §4.4 step 1): `floor(poolSum * (100 - feePercent) / 100)`. -/
def payoutAmount (poolSum feePercent : Nat) : Nat :=
  poolSum * (100 - feePercent) / 100

/-- Modelled from the spec: `DrawLifecycle.create` of the absent contract
source (spec §4.2): duplicate ids fail with `DRAW_ALREADY_EXISTS`, zero
funding aborts at transport level, otherwise a fresh draw is inserted with
`poolSum = fundingValue`, zero participants and an empty ledger. -/
def createDraw (st : ContractStorage) (drawId : Nat)
    (minEntry entryLimit funding : Nat) : Outcome :=
  if (lookupKey st.draws drawId).isSome then
    ⟨st, [], false, ERROR_DRAW_ALREADY_EXISTS, false⟩
  else if funding = 0 then
    ⟨st, [], false, 0, true⟩
  else
    ⟨{ st with draws := setEntry st.draws drawId ⟨minEntry, entryLimit, funding, 0, []⟩ },
     [], true, 0, false⟩

/-- Modelled from the spec: the stake-accumulation update of the absent
contract source (spec §4.3, accepted branch): `poolSum += value`,
`participants[sender] += value`, creating the entry (and bumping
`participantCount`) when the sender is new. -/
def applyStake (d : Draw) (sender : Nat) (value : Nat) : Draw :=
  match lookupKey d.participants sender with
  | some w =>
      { d with poolSum := d.poolSum + value,
               participants := setEntry d.participants sender (w + value) }
  | none =>
      { d with poolSum := d.poolSum + value,
               participantCount := d.participantCount + 1,
               participants := (sender, value) :: d.participants }

/-- Modelled from the spec: `PayoutEngine.resolve` of the absent contract
source (spec §4.4): below the threshold nothing happens; at or above it the
winner is picked stake-proportionally, the fee-reduced pool is sent to the
winner in a single outbound transfer, and the draw is deleted. -/
def resolveDraw (st : ContractStorage) (drawId : Nat) (rand : Nat) :
    ContractStorage × List OutMsg :=
  match lookupKey st.draws drawId with
  | none => (st, [])
  | some d =>
    if d.poolSum < d.entryAmountLimit then (st, [])
    else
      match pickByWeight d.participants (rand % totalWeight d.participants) with
      | none => (st, [])
      | some winner =>
          ({ st with draws := eraseKey st.draws drawId },
           [⟨winner, payoutAmount d.poolSum st.feePercent⟩])

/-- Modelled from the spec: `StakeLedger.stake` of the absent contract source
(spec §4.3): absent draws fail with `DRAW_NOT_FOUND`; a value below the
minimum entry is declined as a business outcome, refunding the value minus
the processing deduction `procFee`; otherwise the stake is accumulated and
the threshold check (resolve) always runs before the message returns. -/
def stake (st : ContractStorage) (drawId : Nat) (value : Nat) (sender : Nat)
    (rand procFee : Nat) : Outcome :=
  match lookupKey st.draws drawId with
  | none => ⟨st, [], false, ERROR_DRAW_NOT_FOUND, false⟩
  | some d =>
    if value < d.minEntryAmount then
      ⟨st, [⟨sender, value - procFee⟩], true, 0, false⟩
    else
      let st1 := { st with draws := setEntry st.draws drawId (applyStake d sender value) }
      let r := resolveDraw st1 drawId rand
      ⟨r.1, r.2, true, 0, false⟩

/-- Modelled from the spec: the `MessageRouter` of the absent contract source
(spec §4.1): `CREATE_DRAW` and `LUCK_ROLL` dispatch to their handlers,
`TOP_UP` and an empty body are accepted with no state change, any other
opcode is rejected with `WRONG_OP`.  `rand` is the per-message random seed,
`procFee` the processing deduction taken from a refunded below-minimum
stake. -/
def route (st : ContractStorage) (msg : InMsg) (rand procFee : Nat) : Outcome :=
  match msg.body with
  | .createDraw _ id minE limE => createDraw st id minE limE msg.value
  | .luckRoll _ id => stake st id msg.value msg.sender rand procFee
  | .topUp => ⟨st, [], true, 0, false⟩
  | .empty => ⟨st, [], true, 0, false⟩
  | .other _ => ⟨st, [], false, ERROR_WRONG_OP, false⟩

/-- Accumulated stake of address `a` in draw `d` (0 when absent). -/
def coinsOf (d : Draw) (a : Nat) : Nat :=
  (lookupKey d.participants a).getD 0

/-- Spec §3 invariants of a single draw: positive minimum entry, key-unique
ledger with positive stakes, and the participant counter equal to the number
of distinct addresses with positive accumulated stake. -/
def drawWf (d : Draw) : Prop :=
  0 < d.minEntryAmount ∧
  (d.participants.map Prod.fst).Nodup ∧
  (∀ p ∈ d.participants, 0 < p.2) ∧
  d.participantCount = (d.participants.filter (fun p => decide (0 < p.2))).length

/-- Spec §3 invariants of the whole storage: unique draw ids and every active
draw well-formed. -/
def storageWf (st : ContractStorage) : Prop :=
  (st.draws.map Prod.fst).Nodup ∧ ∀ p ∈ st.draws, drawWf p.2

/-- A message is well-formed when a create carries a positive minimum entry
amount, matching the spec §3 data model (`minEntryAmount` is a positive coin
amount). -/
def msgWf (msg : InMsg) : Prop :=
  match msg.body with
  | .createDraw _ _ minE _ => 0 < minE
  | _ => True

/-- The amount by which `msg` increases draw `id`'s pool when it is an
accepted stake on `id`, and 0 otherwise. -/
def acceptedStakeValue (st : ContractStorage) (msg : InMsg) (id : Nat) : Nat :=
  match msg.body with
  | .luckRoll _ rid =>
    if rid = id then
      match lookupKey st.draws id with
      | some d => if msg.value < d.minEntryAmount then 0 else msg.value
      | none => 0
    else 0
  | _ => 0

theorem totalWeight_cons (a : Nat) (w : Nat) (tl : List (Nat × Nat)) :
    totalWeight ((a, w) :: tl) = w + totalWeight tl := by
  simp [totalWeight]

theorem weight_le_totalWeight {ps : List (Nat × Nat)} {a : Nat} {w : Nat}
    (h : (a, w) ∈ ps) : w ≤ totalWeight ps := by
  induction ps with
  | nil => simp at h
  | cons hd tl ih =>
    obtain ⟨b, wb⟩ := hd
    rw [totalWeight_cons]
    rcases List.mem_cons.mp h with h1 | h2
    · obtain ⟨rfl, rfl⟩ := Prod.mk.injEq .. ▸ h1
      exact Nat.le_add_right _ _
    · exact le_trans (ih h2) (Nat.le_add_left _ _)

theorem pickByWeight_mem {ps : List (Nat × Nat)} :
    ∀ {r : Nat} {a : Nat}, pickByWeight ps r = some a → a ∈ ps.map Prod.fst := by
  induction ps with
  | nil => intro r a h; simp [pickByWeight] at h
  | cons hd tl ih =>
    intro r a h
    obtain ⟨b, wb⟩ := hd
    by_cases hr : r < wb
    · simp [pickByWeight, hr] at h
      simp [h]
    · simp [pickByWeight, hr] at h
      exact List.mem_cons.mpr (Or.inr (ih h))

theorem pickByWeight_isSome {ps : List (Nat × Nat)} :
    ∀ {r : Nat}, r < totalWeight ps → ∃ a, pickByWeight ps r = some a := by
  induction ps with
  | nil => intro r h; simp [totalWeight] at h
  | cons hd tl ih =>
    intro r h
    obtain ⟨b, wb⟩ := hd
    by_cases hr : r < wb
    · exact ⟨b, by simp [pickByWeight, hr]⟩
    · rw [totalWeight_cons] at h
      have hlt : r - wb < totalWeight tl := by omega
      obtain ⟨a, ha⟩ := ih hlt
      exact ⟨a, by simp [pickByWeight, hr, ha]⟩

theorem applyStake_poolSum (d : Draw) (s : Nat) (v : Nat) :
    (applyStake d s v).poolSum = d.poolSum + v := by
  unfold applyStake
  cases lookupKey d.participants s <;> rfl

theorem applyStake_entryAmountLimit (d : Draw) (s : Nat) (v : Nat) :
    (applyStake d s v).entryAmountLimit = d.entryAmountLimit := by
  unfold applyStake
  cases lookupKey d.participants s <;> rfl

theorem applyStake_minEntryAmount (d : Draw) (s : Nat) (v : Nat) :
    (applyStake d s v).minEntryAmount = d.minEntryAmount := by
  unfold applyStake
  cases lookupKey d.participants s <;> rfl

theorem applyStake_lookup_self (d : Draw) (s : Nat) (v : Nat) :
    lookupKey (applyStake d s v).participants s = some (coinsOf d s + v) := by
  unfold applyStake coinsOf
  cases hls : lookupKey d.participants s with
  | none => simp [lookupKey]
  | some w => simp [lookupKey_setEntry_self]

theorem applyStake_lookup_ne (d : Draw) (s a : Nat) (v : Nat) (h : a ≠ s) :
    lookupKey (applyStake d s v).participants a = lookupKey d.participants a := by
  unfold applyStake
  cases hls : lookupKey d.participants s with
  | none =>
    have hsa : s ≠ a := fun hc => h hc.symm
    simp [lookupKey, hsa]
  | some w => simp [lookupKey_setEntry_ne _ _ _ _ (fun hc : s = a => h hc.symm)]

theorem applyStake_count_new (d : Draw) (s : Nat) (v : Nat)
    (h : lookupKey d.participants s = none) :
    (applyStake d s v).participantCount = d.participantCount + 1 ∧
    (applyStake d s v).participants = (s, v) :: d.participants := by
  unfold applyStake
  rw [h]
  exact ⟨rfl, rfl⟩

theorem applyStake_count_old (d : Draw) (s : Nat) (v w : Nat)
    (h : lookupKey d.participants s = some w) :
    (applyStake d s v).participantCount = d.participantCount ∧
    (applyStake d s v).participants = setEntry d.participants s (w + v) := by
  unfold applyStake
  rw [h]
  exact ⟨rfl, rfl⟩

theorem totalWeight_pos_of_lookup {ps : List (Nat × Nat)} {s : Nat} {w : Nat}
    (h : lookupKey ps s = some w) (hw : 0 < w) : 0 < totalWeight ps :=
  lt_of_lt_of_le hw (weight_le_totalWeight (mem_of_lookupKey h))

/-- C5: a `LUCK_ROLL` stake referencing a `drawId` absent from the draws map
(never created, or already deleted by a resolution) fails with
`DRAW_NOT_FOUND`, exit code 1009, with no state change and no outbound
message. -/
theorem claim5_luckroll_absent_draw_fails (st : ContractStorage) (q id : Nat)
    (v : Nat) (s : Nat) (rand procFee : Nat)
    (h : lookupKey st.draws id = none) :
    route st ⟨.luckRoll q id, v, s⟩ rand procFee = ⟨st, [], false, 1009, false⟩ := by
  simp [route, stake, h, ERROR_DRAW_NOT_FOUND]

theorem claim5_luckroll_absent_draw_fails_witness :
    lookupKey (⟨0, 1, []⟩ : ContractStorage).draws 999 = none ∧
    route ⟨0, 1, []⟩ ⟨.luckRoll 1 999, 5, 7⟩ 0 0 = ⟨⟨0, 1, []⟩, [], false, 1009, false⟩ :=
  ⟨rfl, claim5_luckroll_absent_draw_fails ⟨0, 1, []⟩ 1 999 5 7 0 0 rfl⟩

/-- C6: creating a draw whose `drawId` is already present fails with
`DRAW_ALREADY_EXISTS`, exit code 1004; storage — hence every field of the
original draw — is unchanged. -/
theorem claim6_create_duplicate_fails (st : ContractStorage) (q id : Nat)
    (minE limE v : Nat) (s : Nat) (rand procFee : Nat) (d : Draw)
    (h : lookupKey st.draws id = some d) :
    route st ⟨.createDraw q id minE limE, v, s⟩ rand procFee =
      ⟨st, [], false, 1004, false⟩ ∧
    lookupKey (route st ⟨.createDraw q id minE limE, v, s⟩ rand procFee).storage.draws id =
      some d := by
  have hr : route st ⟨.createDraw q id minE limE, v, s⟩ rand procFee =
      ⟨st, [], false, 1004, false⟩ := by
    simp [route, createDraw, h, ERROR_DRAW_ALREADY_EXISTS]
  exact ⟨hr, by rw [hr]; exact h⟩

theorem claim6_create_duplicate_fails_witness :
    lookupKey (⟨0, 1, [(1, ⟨100, 1000, 50, 0, []⟩)]⟩ : ContractStorage).draws 1 =
      some ⟨100, 1000, 50, 0, []⟩ ∧
    route ⟨0, 1, [(1, ⟨100, 1000, 50, 0, []⟩)]⟩ ⟨.createDraw 2 1 100 1000, 50, 9⟩ 0 0 =
      ⟨⟨0, 1, [(1, ⟨100, 1000, 50, 0, []⟩)]⟩, [], false, 1004, false⟩ :=
  ⟨rfl, (claim6_create_duplicate_fails ⟨0, 1, [(1, ⟨100, 1000, 50, 0, []⟩)]⟩ 2 1 100 1000
    50 9 0 0 ⟨100, 1000, 50, 0, []⟩ rfl).1⟩

/-- C3: a stake below the minimum entry amount on an active draw is reported
successful (a business decline), sends one refund `r` with `0 < r < v` back
to the sender, and leaves the storage — hence `poolSum`, `participants` and
`participantCount` of the draw — completely unchanged.  (`procFee` is the
small processing deduction of spec §4.3; the refund bound requires
`0 < procFee < v`.) -/
theorem claim3_below_minimum_refund (st : ContractStorage) (q id : Nat)
    (v : Nat) (s : Nat) (rand procFee : Nat) (d : Draw)
    (h : lookupKey st.draws id = some d) (hlt : v < d.minEntryAmount)
    (hp0 : 0 < procFee) (hpv : procFee < v) :
    (route st ⟨.luckRoll q id, v, s⟩ rand procFee).success = true ∧
    (route st ⟨.luckRoll q id, v, s⟩ rand procFee).storage = st ∧
    ∃ r, (route st ⟨.luckRoll q id, v, s⟩ rand procFee).out = [⟨s, r⟩] ∧
      0 < r ∧ r < v := by
  have hr : route st ⟨.luckRoll q id, v, s⟩ rand procFee =
      ⟨st, [⟨s, v - procFee⟩], true, 0, false⟩ := by
    simp [route, stake, h, hlt]
  have h1 : 0 < v - procFee := by omega
  have h2 : v - procFee < v := by omega
  exact ⟨by rw [hr], by rw [hr], v - procFee, by rw [hr], h1, h2⟩

theorem claim3_below_minimum_refund_witness :
    (route ⟨0, 1, [(1, ⟨10, 100, 5, 0, []⟩)]⟩ ⟨.luckRoll 2 1, 4, 7⟩ 0 1).success = true ∧
    (route ⟨0, 1, [(1, ⟨10, 100, 5, 0, []⟩)]⟩ ⟨.luckRoll 2 1, 4, 7⟩ 0 1).storage =
      ⟨0, 1, [(1, ⟨10, 100, 5, 0, []⟩)]⟩ ∧
    ∃ r, (route ⟨0, 1, [(1, ⟨10, 100, 5, 0, []⟩)]⟩ ⟨.luckRoll 2 1, 4, 7⟩ 0 1).out =
      [⟨7, r⟩] ∧ 0 < r ∧ r < 4 :=
  claim3_below_minimum_refund ⟨0, 1, [(1, ⟨10, 100, 5, 0, []⟩)]⟩ 2 1 4 7 0 1
    ⟨10, 100, 5, 0, []⟩ rfl (by decide) (by decide) (by decide)

/-- C2: an accepted stake (`v ≥ minEntryAmount`) on an active draw increases
`poolSum` by exactly `v`, increases the sender's accumulated stake by exactly
`v` (creating the entry with value `v` when absent), bumps `participantCount`
by 1 exactly when the sender is new, and the message outcome is exactly the
payout-engine threshold check (resolve) run on the updated storage before
returning. -/
theorem claim2_stake_accumulation (st : ContractStorage) (q id : Nat)
    (v : Nat) (s : Nat) (rand procFee : Nat) (d : Draw)
    (h : lookupKey st.draws id = some d) (hmin : d.minEntryAmount ≤ v) :
    (applyStake d s v).poolSum = d.poolSum + v ∧
    coinsOf (applyStake d s v) s = coinsOf d s + v ∧
    (lookupKey d.participants s = none →
      (applyStake d s v).participantCount = d.participantCount + 1) ∧
    (∀ w, lookupKey d.participants s = some w →
      (applyStake d s v).participantCount = d.participantCount) ∧
    route st ⟨.luckRoll q id, v, s⟩ rand procFee =
      ⟨(resolveDraw { st with draws := setEntry st.draws id (applyStake d s v) } id rand).1,
       (resolveDraw { st with draws := setEntry st.draws id (applyStake d s v) } id rand).2,
       true, 0, false⟩ := by
  have hnlt : ¬ v < d.minEntryAmount := Nat.not_lt.mpr hmin
  refine ⟨applyStake_poolSum d s v, ?_, ?_, ?_, ?_⟩
  · rw [coinsOf, applyStake_lookup_self]
    rfl
  · intro hn
    exact (applyStake_count_new d s v hn).1
  · intro w hw
    exact (applyStake_count_old d s v w hw).1
  · simp [route, stake, h, hnlt]

theorem claim2_stake_accumulation_witness :
    route ⟨0, 1, [(1, ⟨2, 100, 10, 0, []⟩)]⟩ ⟨.luckRoll 3 1, 5, 7⟩ 0 0 =
      ⟨⟨0, 1, [(1, ⟨2, 100, 15, 1, [(7, 5)]⟩)]⟩, [], true, 0, false⟩ := by
  have h := (claim2_stake_accumulation ⟨0, 1, [(1, ⟨2, 100, 10, 0, []⟩)]⟩ 3 1 5 7 0 0
    ⟨2, 100, 10, 0, []⟩ rfl (by decide)).2.2.2.2
  rw [h]
  rfl

/-- C7: for every inbound message that is not `CREATE_DRAW` or `LUCK_ROLL`:
a `TOP_UP` and an empty-body message are accepted with no state change at
all; any other opcode is rejected with `WRONG_OP` (exit code `0xFFFF`) and
no state change; and, across all opcodes, a rejected message never mutates
the contract storage. -/
theorem claim7_non_draw_messages (st : ContractStorage) (msg : InMsg)
    (rand procFee : Nat) :
    (msg.body = .topUp ∨ msg.body = .empty →
      route st msg rand procFee = ⟨st, [], true, 0, false⟩) ∧
    (∀ op, msg.body = .other op →
      route st msg rand procFee = ⟨st, [], false, 0xFFFF, false⟩) ∧
    ((route st msg rand procFee).success = false →
      (route st msg rand procFee).storage = st) := by
  refine ⟨?_, ?_, ?_⟩
  · rintro (hb | hb) <;> simp [route, hb]
  · intro op hb
    simp [route, hb, ERROR_WRONG_OP]
  · cases hb : msg.body with
    | createDraw q id minE limE =>
      simp only [route, hb, createDraw]
      split_ifs <;> simp
    | luckRoll q id =>
      simp only [route, hb, stake]
      cases hl : lookupKey st.draws id with
      | none => simp
      | some d => by_cases hv : msg.value < d.minEntryAmount <;> simp [hv]
    | topUp => simp [route, hb]
    | empty => simp [route, hb]
    | other op => simp [route, hb]

theorem claim7_non_draw_messages_witness :
    route ⟨0, 1, [(1, ⟨2, 100, 10, 0, []⟩)]⟩ ⟨.other 0xdeadbeef, 5, 7⟩ 0 0 =
      ⟨⟨0, 1, [(1, ⟨2, 100, 10, 0, []⟩)]⟩, [], false, 0xFFFF, false⟩ :=
  (claim7_non_draw_messages ⟨0, 1, [(1, ⟨2, 100, 10, 0, []⟩)]⟩
    ⟨.other 0xdeadbeef, 5, 7⟩ 0 0).2.1 0xdeadbeef rfl

/-- C1 counterexample: the claim's `0 < payout` conjunct is false as stated.
Spec §3 allows `feePercent` up to 100 inclusive; at `feePercent = 100` a
stake that lifts the pool to the threshold resolves the draw (it is removed
from the map) and the single outbound payout is
`floor(100·(100−100)/100) = 0`, so no outbound message has positive value. -/
theorem claim1_threshold_resolution_counterexample :
    lookupKey (route ⟨0, 100, [(1, ⟨1, 10, 95, 1, [(5, 95)]⟩)]⟩
      ⟨.luckRoll 9 1, 5, 5⟩ 0 0).storage.draws 1 = none ∧
    (route ⟨0, 100, [(1, ⟨1, 10, 95, 1, [(5, 95)]⟩)]⟩
      ⟨.luckRoll 9 1, 5, 5⟩ 0 0).out = [⟨5, 0⟩] ∧
    ¬ ∃ m ∈ (route ⟨0, 100, [(1, ⟨1, 10, 95, 1, [(5, 95)]⟩)]⟩
      ⟨.luckRoll 9 1, 5, 5⟩ 0 0).out, 0 < m.value := by
  decide

/-- C1 (amended): after an accepted stake on an active draw, the payout
engine's threshold check runs: while the updated `poolSum` is below
`entryAmountLimit` it is a no-op and the draw stays active with the staked
update; once `poolSum ≥ entryAmountLimit` the draw is removed from the map
and exactly one outbound payout goes to an address holding a participant
entry of that draw, with `payout ≤ floor(poolSum·(100−feePercent)/100)`;
the payout is strictly positive whenever `feePercent < 100` and the resolved
pool is at least 100 (at the spec-permitted `feePercent = 100` the payout is
0, see the counterexample). -/
theorem claim1_threshold_resolution (st : ContractStorage) (q id : Nat)
    (v : Nat) (s : Nat) (rand procFee : Nat) (d : Draw)
    (h : lookupKey st.draws id = some d) (hmin : d.minEntryAmount ≤ v)
    (hv : 0 < v) :
    (d.poolSum + v < d.entryAmountLimit →
      lookupKey (route st ⟨.luckRoll q id, v, s⟩ rand procFee).storage.draws id =
        some (applyStake d s v) ∧
      (route st ⟨.luckRoll q id, v, s⟩ rand procFee).out = []) ∧
    (d.entryAmountLimit ≤ d.poolSum + v →
      lookupKey (route st ⟨.luckRoll q id, v, s⟩ rand procFee).storage.draws id = none ∧
      ∃ winner payout,
        (route st ⟨.luckRoll q id, v, s⟩ rand procFee).out = [⟨winner, payout⟩] ∧
        (lookupKey (applyStake d s v).participants winner).isSome ∧
        payout ≤ (d.poolSum + v) * (100 - st.feePercent) / 100 ∧
        (st.feePercent < 100 → 100 ≤ d.poolSum + v → 0 < payout)) := by
  have hnlt : ¬ v < d.minEntryAmount := Nat.not_lt.mpr hmin
  have hroute : route st ⟨.luckRoll q id, v, s⟩ rand procFee =
      ⟨(resolveDraw { st with draws := setEntry st.draws id (applyStake d s v) } id rand).1,
       (resolveDraw { st with draws := setEntry st.draws id (applyStake d s v) } id rand).2,
       true, 0, false⟩ := by
    simp [route, stake, h, hnlt]
  have hlook1 : lookupKey ({ st with
      draws := setEntry st.draws id (applyStake d s v) } : ContractStorage).draws id =
      some (applyStake d s v) := lookupKey_setEntry_self _ _ _
  constructor
  · intro hlt
    have hc : (applyStake d s v).poolSum < (applyStake d s v).entryAmountLimit := by
      rw [applyStake_poolSum, applyStake_entryAmountLimit]
      exact hlt
    have hres : resolveDraw { st with draws := setEntry st.draws id (applyStake d s v) }
        id rand = ({ st with draws := setEntry st.draws id (applyStake d s v) }, []) := by
      simp [resolveDraw, hlook1, hc]
    rw [hroute]
    rw [hres]
    exact ⟨hlook1, rfl⟩
  · intro hge
    have hc : ¬ ((applyStake d s v).poolSum < (applyStake d s v).entryAmountLimit) := by
      rw [applyStake_poolSum, applyStake_entryAmountLimit]
      omega
    have hwpos : 0 < coinsOf d s + v := by omega
    have htot : 0 < totalWeight (applyStake d s v).participants :=
      totalWeight_pos_of_lookup (applyStake_lookup_self d s v) hwpos
    have hrand : rand % totalWeight (applyStake d s v).participants <
        totalWeight (applyStake d s v).participants := Nat.mod_lt _ htot
    obtain ⟨winner, hwin⟩ := pickByWeight_isSome hrand
    have hres : resolveDraw { st with draws := setEntry st.draws id (applyStake d s v) }
        id rand =
        ({ st with draws := eraseKey (setEntry st.draws id (applyStake d s v)) id },
         [⟨winner, payoutAmount (applyStake d s v).poolSum st.feePercent⟩]) := by
      simp [resolveDraw, hlook1, hc, hwin]
    refine ⟨?_, winner, payoutAmount (applyStake d s v).poolSum st.feePercent, ?_, ?_, ?_, ?_⟩
    · rw [hroute, hres]
      exact lookupKey_eraseKey_self _ _
    · rw [hroute, hres]
    · exact lookupKey_isSome_of_mem (pickByWeight_mem hwin)
    · rw [payoutAmount, applyStake_poolSum]
    · intro hfee hpool
      rw [payoutAmount, applyStake_poolSum]
      have h1 : 1 * 100 ≤ (d.poolSum + v) * (100 - st.feePercent) := by
        have h2 : 1 ≤ 100 - st.feePercent := by omega
        calc 1 * 100 = 100 := one_mul 100
          _ ≤ d.poolSum + v := hpool
          _ = (d.poolSum + v) * 1 := (mul_one _).symm
          _ ≤ (d.poolSum + v) * (100 - st.feePercent) := Nat.mul_le_mul_left _ h2
      exact (Nat.le_div_iff_mul_le (by norm_num)).mpr h1

/-- C1 witness: a concrete resolving stake at `feePercent = 1`. -/
theorem claim1_threshold_resolution_witness :
    lookupKey (route ⟨0, 1, [(1, ⟨1, 10, 95, 1, [(5, 95)]⟩)]⟩
        ⟨.luckRoll 9 1, 5, 5⟩ 0 0).storage.draws 1 = none ∧
    ∃ winner payout,
      (route ⟨0, 1, [(1, ⟨1, 10, 95, 1, [(5, 95)]⟩)]⟩
        ⟨.luckRoll 9 1, 5, 5⟩ 0 0).out = [⟨winner, payout⟩] ∧
      (lookupKey (applyStake ⟨1, 10, 95, 1, [(5, 95)]⟩ 5 5).participants winner).isSome ∧
      payout ≤ (95 + 5) * (100 - 1) / 100 ∧
      (1 < 100 → 100 ≤ 95 + 5 → 0 < payout) :=
  (claim1_threshold_resolution ⟨0, 1, [(1, ⟨1, 10, 95, 1, [(5, 95)]⟩)]⟩ 9 1 5 5 0 0
    ⟨1, 10, 95, 1, [(5, 95)]⟩ rfl (by decide) (by decide)).2
    (by decide)

theorem pickByWeight_countP {ps : List (Nat × Nat)} (hnd : (ps.map Prod.fst).Nodup) :
    ∀ {a w : Nat}, (a, w) ∈ ps →
      (List.range (totalWeight ps)).countP
        (fun r => decide (pickByWeight ps r = some a)) = w := by
  induction ps with
  | nil =>
    intro a w hmem
    simp at hmem
  | cons hd tl ih =>
    intro a w hmem
    obtain ⟨b, wb⟩ := hd
    have hbtl : b ∉ tl.map Prod.fst := by
      simp only [List.map_cons, List.nodup_cons] at hnd
      exact hnd.1
    have hndtl : (tl.map Prod.fst).Nodup := by
      simp only [List.map_cons, List.nodup_cons] at hnd
      exact hnd.2
    rw [totalWeight_cons, List.range_add, List.countP_append, List.countP_map]
    rcases List.mem_cons.mp hmem with h1 | h2
    · injection h1 with ha hw
      subst ha
      subst hw
      have hfirst : (List.range w).countP
          (fun r => decide (pickByWeight ((a, w) :: tl) r = some a)) = w := by
        rw [List.countP_eq_length.mpr, List.length_range]
        intro r hr
        have hrw : r < w := List.mem_range.mp hr
        simp [pickByWeight, hrw]
      have hsecond : (List.range (totalWeight tl)).countP
          ((fun r => decide (pickByWeight ((a, w) :: tl) r = some a)) ∘ (w + ·)) = 0 := by
        rw [List.countP_eq_zero]
        intro r hr
        have hnlt : ¬ (w + r < w) := by omega
        simp only [Function.comp, pickByWeight, hnlt, if_false,
          Nat.add_sub_cancel_left, decide_eq_true_eq]
        intro hpick
        exact hbtl (pickByWeight_mem hpick)
      rw [hfirst, hsecond]
      omega
    · have hab : a ≠ b := by
        intro hc
        subst hc
        exact hbtl (List.mem_map.mpr ⟨(a, w), h2, rfl⟩)
      have hfirst : (List.range wb).countP
          (fun r => decide (pickByWeight ((b, wb) :: tl) r = some a)) = 0 := by
        rw [List.countP_eq_zero]
        intro r hr
        have hrw : r < wb := List.mem_range.mp hr
        simp only [pickByWeight, hrw, if_true, decide_eq_true_eq]
        intro hc
        exact hab (Option.some.inj hc).symm
      have hsecond : (List.range (totalWeight tl)).countP
          ((fun r => decide (pickByWeight ((b, wb) :: tl) r = some a)) ∘ (wb + ·)) =
          (List.range (totalWeight tl)).countP
          (fun r => decide (pickByWeight tl r = some a)) := by
        apply List.countP_congr
        intro r hr
        have hnlt : ¬ (wb + r < wb) := by omega
        simp [Function.comp, pickByWeight, hnlt, Nat.add_sub_cancel_left]
      rw [hfirst, hsecond, ih hndtl h2]
      omega

/-- C4: on resolution exactly one winner is selected from the resolving
draw's participants, and selection is stake-proportional: (i) the winner
picked from the per-message seed is always a participant, and resolution
sends exactly one payout to that winner; (ii) out of the `totalWeight ps`
equally likely residues of the seed, exactly `w` select the participant with
accumulated stake `w` — probability `w / totalWeight`; (iii) a
single-participant draw selects that participant for every seed. -/
theorem claim4_weighted_winner_selection (ps : List (Nat × Nat))
    (hpos : ∀ p ∈ ps, 0 < p.2) (hnd : (ps.map Prod.fst).Nodup) (hne : ps ≠ []) :
    (∀ st id d rand, lookupKey st.draws id = some d → d.participants = ps →
      d.entryAmountLimit ≤ d.poolSum →
      ∃ a, pickByWeight ps (rand % totalWeight ps) = some a ∧ a ∈ ps.map Prod.fst ∧
        (resolveDraw st id rand).2 = [⟨a, payoutAmount d.poolSum st.feePercent⟩]) ∧
    (∀ a w, (a, w) ∈ ps →
      (List.range (totalWeight ps)).countP
        (fun r => decide (pickByWeight ps r = some a)) = w) ∧
    (∀ a w rand, ps = [(a, w)] →
      pickByWeight ps (rand % totalWeight ps) = some a) := by
  have htot : 0 < totalWeight ps := by
    cases ps with
    | nil => exact absurd rfl hne
    | cons hd tl =>
      obtain ⟨b, wb⟩ := hd
      rw [totalWeight_cons]
      have := hpos (b, wb) (List.mem_cons_self _ _)
      simp at this
      omega
  refine ⟨?_, fun a w hmem => pickByWeight_countP hnd hmem, ?_⟩
  · intro st id d rand hlook hparts hge
    obtain ⟨a, ha⟩ := pickByWeight_isSome (Nat.mod_lt rand htot)
    refine ⟨a, ha, pickByWeight_mem ha, ?_⟩
    have hc : ¬ (d.poolSum < d.entryAmountLimit) := Nat.not_lt.mpr hge
    simp [resolveDraw, hlook, hc, hparts, ha]
  · intro a w rand hps
    subst hps
    have hw : 0 < w := by
      have := hpos (a, w) (List.mem_cons_self _ _)
      simpa using this
    have hr : rand % totalWeight [(a, w)] < w := by
      have := Nat.mod_lt rand htot
      simpa [totalWeight] using this
    simp [pickByWeight, hr]

theorem claim4_weighted_winner_selection_witness :
    (List.range (totalWeight [(3, 2), (4, 1)])).countP
      (fun r => decide (pickByWeight [(3, 2), (4, 1)] r = some 4)) = 1 :=
  (claim4_weighted_winner_selection [(3, 2), (4, 1)] (by decide) (by decide)
    (by decide)).2.1 4 1 (by decide)

theorem nodup_keys_setEntry {α β : Type} [DecidableEq α]
    (ps : List (α × β)) (k : α) (v : β) (h : (ps.map Prod.fst).Nodup) :
    ((setEntry ps k v).map Prod.fst).Nodup := by
  by_cases hm : k ∈ ps.map Prod.fst
  · rw [keys_setEntry_of_mem _ _ _ hm]
    exact h
  · rw [keys_setEntry_of_not_mem _ _ _ hm]
    simp [List.nodup_append, h, hm]

theorem storageWf_eraseKey {st : ContractStorage} (h : storageWf st) (j : Nat) :
    storageWf { st with draws := eraseKey st.draws j } := by
  obtain ⟨hnd, hall⟩ := h
  constructor
  · exact hnd.sublist ((List.filter_sublist _).map Prod.fst)
  · intro p hp
    exact hall p (List.mem_of_mem_filter hp)

theorem storageWf_setEntry {st : ContractStorage} (h : storageWf st) (j : Nat) {d : Draw}
    (hd : drawWf d) : storageWf { st with draws := setEntry st.draws j d } := by
  obtain ⟨hnd, hall⟩ := h
  refine ⟨nodup_keys_setEntry _ _ _ hnd, ?_⟩
  intro p hp
  rcases mem_setEntry hp with h1 | h1
  · rw [h1]
    exact hd
  · exact hall p h1

theorem drawWf_applyStake {d : Draw} (hwf : drawWf d) (s v : Nat)
    (hv : d.minEntryAmount ≤ v) : drawWf (applyStake d s v) := by
  obtain ⟨hmin, hnd, hposv, hcnt⟩ := hwf
  have hv0 : 0 < v := lt_of_lt_of_le hmin hv
  have hmin' : (applyStake d s v).minEntryAmount = d.minEntryAmount :=
    applyStake_minEntryAmount d s v
  cases hls : lookupKey d.participants s with
  | none =>
    obtain ⟨hc, hp⟩ := applyStake_count_new d s v hls
    refine ⟨by rw [hmin']; exact hmin, ?_, ?_, ?_⟩
    · rw [hp]
      simp only [List.map_cons]
      exact List.nodup_cons.mpr ⟨not_mem_of_lookupKey_eq_none hls, hnd⟩
    · rw [hp]
      intro p hp'
      rcases List.mem_cons.mp hp' with h1 | h1
      · rw [h1]
        exact hv0
      · exact hposv p h1
    · rw [hc, hp, List.filter_cons]
      simp only [hv0, decide_true_eq_true]
      simp [hcnt]
  | some w =>
    obtain ⟨hc, hp⟩ := applyStake_count_old d s v w hls
    have hmem : s ∈ d.participants.map Prod.fst :=
      List.mem_map.mpr ⟨(s, w), mem_of_lookupKey hls, rfl⟩
    refine ⟨by rw [hmin']; exact hmin, ?_, ?_, ?_⟩
    · rw [hp]
      exact nodup_keys_setEntry _ _ _ hnd
    · rw [hp]
      intro p hp'
      rcases mem_setEntry hp' with h1 | h1
      · rw [h1]
        have := hposv (s, w) (mem_of_lookupKey hls)
        simp at this ⊢
        omega
      · exact hposv p h1
    · rw [hc, hp]
      have hall : ∀ p ∈ setEntry d.participants s (w + v), (decide (0 < p.2)) = true := by
        intro p hp'
        rcases mem_setEntry hp' with h1 | h1
        · rw [h1]
          have := hposv (s, w) (mem_of_lookupKey hls)
          simp at this ⊢
          omega
        · simpa using hposv p h1
      have hall' : ∀ p ∈ d.participants, (decide (0 < p.2)) = true := by
        intro p hp'
        simpa using hposv p hp'
      rw [List.filter_eq_self.mpr hall, length_setEntry_of_mem _ _ _ hmem, hcnt,
        List.filter_eq_self.mpr hall']

theorem coinsOf_applyStake_le (d : Draw) (s v a : Nat) :
    coinsOf d a ≤ coinsOf (applyStake d s v) a := by
  by_cases ha : a = s
  · subst ha
    rw [coinsOf, coinsOf, applyStake_lookup_self]
    simp only [Option.getD_some]
    exact Nat.le_add_right _ _
  · rw [coinsOf, coinsOf, applyStake_lookup_ne d s a v ha]

theorem resolveDraw_storage_cases (st : ContractStorage) (j rand : Nat) :
    (resolveDraw st j rand).1 = st ∨
    (resolveDraw st j rand).1 = { st with draws := eraseKey st.draws j } := by
  unfold resolveDraw
  cases lookupKey st.draws j with
  | none => exact Or.inl rfl
  | some d =>
    by_cases hc : d.poolSum < d.entryAmountLimit
    · simp [hc]
    · simp only [hc, if_false]
      cases pickByWeight d.participants (rand % totalWeight d.participants) with
      | none => exact Or.inl rfl
      | some winner => exact Or.inr rfl

theorem resolveDraw_draws_cases (st : ContractStorage) (j rand : Nat) :
    (resolveDraw st j rand).1.draws = st.draws ∨
    (resolveDraw st j rand).1.draws = eraseKey st.draws j := by
  rcases resolveDraw_storage_cases st j rand with h | h
  · rw [h]
    exact Or.inl rfl
  · rw [h]
    exact Or.inr rfl

theorem frame_triv {st : ContractStorage} {msg : InMsg} {rand procFee : Nat}
    (hwf : storageWf st)
    (hstor : (route st msg rand procFee).storage = st)
    (hacc : ∀ id, acceptedStakeValue st msg id = 0) :
    storageWf (route st msg rand procFee).storage ∧
    (∀ id d d', lookupKey st.draws id = some d →
      lookupKey (route st msg rand procFee).storage.draws id = some d' →
      d'.poolSum = d.poolSum + acceptedStakeValue st msg id ∧
      (∀ a, coinsOf d a ≤ coinsOf d' a)) ∧
    (∀ id d', lookupKey st.draws id = none →
      lookupKey (route st msg rand procFee).storage.draws id = some d' →
      d'.poolSum = msg.value ∧ d'.participantCount = 0 ∧ d'.participants = []) := by
  rw [hstor]
  refine ⟨hwf, ?_, ?_⟩
  · intro id d d' h1 h2
    rw [h1] at h2
    obtain rfl : d = d' := Option.some.inj h2
    rw [hacc id]
    exact ⟨rfl, fun a => le_refl _⟩
  · intro id d' h1 h2
    rw [h1] at h2
    cases h2

/-- C8: spec §3 invariants hold after each processed message: the storage
stays well-formed (unique draw ids; each active draw has a positive minimum
entry, a key-unique ledger of positive stakes, and `participantCount` equal
to the number of distinct addresses with positive accumulated stake); an
active draw surviving the message has its `poolSum` increased by exactly the
accepted stake the message contributed (0 for every non-stake message, so
`poolSum` is non-decreasing and equals creation funding plus the sum of
accepted stakes along any run) and its participant entries never decreased;
and a draw freshly inserted by the message starts with `poolSum` equal to
the funding value, zero participants and an empty ledger. -/
theorem claim8_active_draw_invariants (st : ContractStorage) (msg : InMsg)
    (rand procFee : Nat) (hwf : storageWf st) (hmsg : msgWf msg) :
    storageWf (route st msg rand procFee).storage ∧
    (∀ id d d', lookupKey st.draws id = some d →
      lookupKey (route st msg rand procFee).storage.draws id = some d' →
      d'.poolSum = d.poolSum + acceptedStakeValue st msg id ∧
      (∀ a, coinsOf d a ≤ coinsOf d' a)) ∧
    (∀ id d', lookupKey st.draws id = none →
      lookupKey (route st msg rand procFee).storage.draws id = some d' →
      d'.poolSum = msg.value ∧ d'.participantCount = 0 ∧ d'.participants = []) := by
  obtain ⟨body, value, sender⟩ := msg
  cases body with
  | topUp =>
    exact frame_triv hwf (by simp [route]) (fun id => by simp [acceptedStakeValue])
  | empty =>
    exact frame_triv hwf (by simp [route]) (fun id => by simp [acceptedStakeValue])
  | other op =>
    exact frame_triv hwf (by simp [route]) (fun id => by simp [acceptedStakeValue])
  | createDraw q j minE limE =>
    by_cases hex : (lookupKey st.draws j).isSome
    · exact frame_triv hwf (by simp [route, createDraw, hex])
        (fun id => by simp [acceptedStakeValue])
    · by_cases hz : value = 0
      · exact frame_triv hwf (by simp [route, createDraw, hex, hz])
          (fun id => by simp [acceptedStakeValue])
      · have hnone : lookupKey st.draws j = none := by
          cases hlj : lookupKey st.draws j with
          | none => rfl
          | some d0 =>
            rw [hlj] at hex
            simp at hex
        have hminE : 0 < minE := hmsg
        have hstor : (route st ⟨.createDraw q j minE limE, value, sender⟩ rand
            procFee).storage =
            { st with draws := setEntry st.draws j ⟨minE, limE, value, 0, []⟩ } := by
          simp [route, createDraw, hex, hz]
        have hstorD : (route st ⟨.createDraw q j minE limE, value, sender⟩ rand
            procFee).storage.draws =
            setEntry st.draws j ⟨minE, limE, value, 0, []⟩ := by
          rw [hstor]
        refine ⟨?_, ?_, ?_⟩
        · rw [hstor]
          exact storageWf_setEntry hwf j ⟨hminE, by simp, by simp, by simp⟩
        · intro id d d' h1 h2
          rw [hstorD] at h2
          have hne : j ≠ id := by
            intro hc
            rw [hc] at hnone
            rw [hnone] at h1
            cases h1
          rw [lookupKey_setEntry_ne _ _ _ _ hne, h1] at h2
          obtain rfl : d = d' := Option.some.inj h2
          exact ⟨by simp [acceptedStakeValue], fun a => le_refl _⟩
        · intro id d' h1 h2
          rw [hstorD] at h2
          by_cases hij : j = id
          · subst hij
            rw [lookupKey_setEntry_self] at h2
            obtain rfl : (⟨minE, limE, value, 0, []⟩ : Draw) = d' := Option.some.inj h2
            exact ⟨rfl, rfl, rfl⟩
          · rw [lookupKey_setEntry_ne _ _ _ _ hij, h1] at h2
            cases h2
  | luckRoll q j =>
    cases hl : lookupKey st.draws j with
    | none =>
      refine frame_triv hwf (by simp [route, stake, hl]) (fun id => ?_)
      by_cases hij : j = id
      · subst hij
        simp [acceptedStakeValue, hl]
      · simp [acceptedStakeValue, hij]
    | some d =>
      by_cases hlt : value < d.minEntryAmount
      · refine frame_triv hwf (by simp [route, stake, hl, hlt]) (fun id => ?_)
        by_cases hij : j = id
        · subst hij
          simp [acceptedStakeValue, hl, hlt]
        · simp [acceptedStakeValue, hij]
      · have hdwf : drawWf d := hwf.2 (j, d) (mem_of_lookupKey hl)
        have hmin : d.minEntryAmount ≤ value := Nat.not_lt.mp hlt
        have hst1wf : storageWf
            { st with draws := setEntry st.draws j (applyStake d sender value) } :=
          storageWf_setEntry hwf j (drawWf_applyStake hdwf sender value hmin)
        have hstor : (route st ⟨.luckRoll q j, value, sender⟩ rand procFee).storage =
            (resolveDraw { st with
              draws := setEntry st.draws j (applyStake d sender value) } j rand).1 := by
          simp [route, stake, hl, hlt]
        have hacc_self : acceptedStakeValue st ⟨.luckRoll q j, value, sender⟩ j = value := by
          simp [acceptedStakeValue, hl, hlt]
        have hacc_ne : ∀ id, j ≠ id →
            acceptedStakeValue st ⟨.luckRoll q j, value, sender⟩ id = 0 := by
          intro id hij
          simp [acceptedStakeValue, hij]
        rcases resolveDraw_draws_cases
            { st with draws := setEntry st.draws j (applyStake d sender value) } j rand
          with hcase | hcase
        · refine ⟨?_, ?_, ?_⟩
          · rcases resolveDraw_storage_cases
                { st with draws := setEntry st.draws j (applyStake d sender value) } j rand
              with hc2 | hc2
            · rw [hstor, hc2]
              exact hst1wf
            · rw [hstor, hc2]
              exact storageWf_eraseKey hst1wf j
          · intro id d0 d0' h1 h2
            rw [hstor, hcase] at h2
            by_cases hij : j = id
            · subst hij
              rw [lookupKey_setEntry_self] at h2
              obtain rfl : applyStake d sender value = d0' := Option.some.inj h2
              rw [hl] at h1
              obtain rfl : d = d0 := Option.some.inj h1
              rw [hacc_self]
              exact ⟨applyStake_poolSum d sender value,
                fun a => coinsOf_applyStake_le d sender value a⟩
            · rw [lookupKey_setEntry_ne _ _ _ _ hij, h1] at h2
              obtain rfl : d0 = d0' := Option.some.inj h2
              rw [hacc_ne id hij]
              exact ⟨rfl, fun a => le_refl _⟩
          · intro id d' h1 h2
            rw [hstor, hcase] at h2
            have hij : j ≠ id := by
              intro hc
              rw [hc] at hl
              rw [hl] at h1
              cases h1
            rw [lookupKey_setEntry_ne _ _ _ _ hij, h1] at h2
            cases h2
        · refine ⟨?_, ?_, ?_⟩
          · rcases resolveDraw_storage_cases
                { st with draws := setEntry st.draws j (applyStake d sender value) } j rand
              with hc2 | hc2
            · rw [hstor, hc2]
              exact hst1wf
            · rw [hstor, hc2]
              exact storageWf_eraseKey hst1wf j
          · intro id d0 d0' h1 h2
            rw [hstor, hcase] at h2
            by_cases hij : j = id
            · subst hij
              rw [lookupKey_eraseKey_self] at h2
              cases h2
            · rw [lookupKey_eraseKey_ne _ _ _ hij,
                lookupKey_setEntry_ne _ _ _ _ hij, h1] at h2
              obtain rfl : d0 = d0' := Option.some.inj h2
              rw [hacc_ne id hij]
              exact ⟨rfl, fun a => le_refl _⟩
          · intro id d' h1 h2
            rw [hstor, hcase] at h2
            have hij : j ≠ id := by
              intro hc
              rw [hc] at hl
              rw [hl] at h1
              cases h1
            rw [lookupKey_eraseKey_ne _ _ _ hij,
              lookupKey_setEntry_ne _ _ _ _ hij, h1] at h2
            cases h2

theorem claim8_active_draw_invariants_witness :
    storageWf (route ⟨0, 1, [(1, ⟨2, 100, 10, 1, [(4, 6)]⟩)]⟩
      ⟨.luckRoll 3 1, 5, 7⟩ 0 0).storage :=
  (claim8_active_draw_invariants ⟨0, 1, [(1, ⟨2, 100, 10, 1, [(4, 6)]⟩)]⟩
    ⟨.luckRoll 3 1, 5, 7⟩ 0 0
    ⟨by simp, by intro p hp; simp at hp; rw [hp]; exact ⟨by decide, by decide, by decide, by decide⟩⟩
    trivial).1

end Contract

namespace Wrapper

/-!
Embedding of `wrappers/RandomWin.ts`.  The `@ton/core` builder/slice
primitives (`storeUint`, `storeCoins`, `storeAddress`, `storeDict` and their
loaders) are external collaborators: spec §1/§6 treat serialization as a wire
contract of fixed-width big-endian bit-packed fields.  Bit-level fields are
embedded exactly (big-endian `natToBits`, TON var-coin 4-bit length prefix,
`addr_std` tag bits); a dictionary is embedded as the maybe-ref `storeDict`
produces: one presence bit and, when non-empty, a reference carrying the
key/serialized-value entries.
-/

/-- TON internal standard address (`addr_std`): 8-bit workchain, 256-bit
hash. -/
structure Address where
  workchain : Nat
  hash : Nat
deriving Repr, DecidableEq

/-- Big-endian `width`-bit encoding of `v` (the wire format of spec §6). -/
def natToBits : Nat → Nat → List Bool
  | 0, _ => []
  | w + 1, v => natToBits w (v / 2) ++ [decide (v % 2 = 1)]

/-- Big-endian read-back of a bit string. -/
def bitsToNat (bs : List Bool) : Nat :=
  bs.foldl (fun acc b => 2 * acc + (if b then 1 else 0)) 0

theorem length_natToBits (w v : Nat) : (natToBits w v).length = w := by
  induction w generalizing v with
  | zero => rfl
  | succ w ih => simp [natToBits, ih]

theorem bitsToNat_go (w : Nat) : ∀ (v acc : Nat), v < 2 ^ w →
    (natToBits w v).foldl (fun acc b => 2 * acc + (if b then 1 else 0)) acc =
      acc * 2 ^ w + v := by
  induction w with
  | zero =>
    intro v acc h
    simp [natToBits] at h ⊢
    omega
  | succ w ih =>
    intro v acc h
    have hp : 2 ^ (w + 1) = 2 ^ w * 2 := pow_succ 2 w
    rw [natToBits, List.foldl_append]
    rw [ih (v / 2) acc (by omega), hp, ← mul_assoc]
    by_cases hm : v % 2 = 1 <;> simp [hm] <;> omega

theorem bitsToNat_natToBits (w v : Nat) (h : v < 2 ^ w) :
    bitsToNat (natToBits w v) = v := by
  have := bitsToNat_go w v 0 h
  simpa [bitsToNat] using this

/-- One slot of a cell body: a data bit, or the reference produced by a
non-empty `storeDict` carrying the dictionary payload. -/
inductive Seg (δ : Type) where
  | b (bit : Bool)
  | ref (payload : δ)
deriving Repr, DecidableEq

/-- Read `n` data bits from the head of a slice. -/
def takeBits {δ : Type} : Nat → List (Seg δ) → Option (List Bool × List (Seg δ))
  | 0, s => some ([], s)
  | n + 1, Seg.b bit :: rest =>
      match takeBits n rest with
      | some (bs, r) => some (bit :: bs, r)
      | none => none
  | _ + 1, Seg.ref _ :: _ => none
  | _ + 1, [] => none

theorem takeBits_append {δ : Type} (bs : List Bool) (rest : List (Seg δ)) :
    takeBits bs.length (bs.map Seg.b ++ rest) = some (bs, rest) := by
  induction bs with
  | nil => rfl
  | cons b tl ih => simp [takeBits, ih]

theorem takeBits_append_w {δ : Type} (w : Nat) (bs : List Bool) (hlen : bs.length = w)
    (rest : List (Seg δ)) : takeBits w (bs.map Seg.b ++ rest) = some (bs, rest) := by
  subst hlen
  exact takeBits_append bs rest

/-- `slice.loadUint(width)`. -/
def loadUintS {δ : Type} (w : Nat) (s : List (Seg δ)) : Option (Nat × List (Seg δ)) :=
  (takeBits w s).map (fun p => (bitsToNat p.1, p.2))

/-- `builder.storeUint(value, width)`; fails when the value does not fit. -/
def storeUintB (value width : Nat) : Option (List Bool) :=
  if value < 2 ^ width then some (natToBits width value) else none

theorem loadUintS_of_store {δ : Type} {v w : Nat} {bs : List Bool}
    (hs : storeUintB v w = some bs) (rest : List (Seg δ)) :
    loadUintS w (bs.map Seg.b ++ rest) = some (v, rest) := by
  by_cases h : v < 2 ^ w
  · rw [storeUintB, if_pos h] at hs
    obtain rfl : natToBits w v = bs := Option.some.inj hs
    rw [loadUintS, takeBits_append_w w _ (length_natToBits w v) rest]
    simp [bitsToNat_natToBits w v h]
  · rw [storeUintB, if_neg h] at hs
    cases hs

/-- Number of bits of `v` (`bitsForNumber` in `@ton/core`). -/
def bitsForNumber (v : Nat) : Nat := if v = 0 then 0 else Nat.log2 v + 1

/-- Minimal byte length of a var-coin value. -/
def coinsByteLen (v : Nat) : Nat := (bitsForNumber v + 7) / 8

/-- The bit string `storeCoins` writes: 4-bit byte length, then the value. -/
def coinsBits (v : Nat) : List Bool :=
  natToBits 4 (coinsByteLen v) ++ natToBits (8 * coinsByteLen v) v

/-- `builder.storeCoins(v)` (TON var-uint-16: 4-bit length in bytes followed
by that many bytes, big-endian); fails above 2^120 − 1. -/
def storeCoinsB (v : Nat) : Option (List Bool) :=
  if coinsByteLen v < 16 then some (coinsBits v) else none

/-- `slice.loadCoins()`. -/
def loadCoinsS {δ : Type} (s : List (Seg δ)) : Option (Nat × List (Seg δ)) :=
  (takeBits 4 s).bind (fun p =>
    (takeBits (8 * bitsToNat p.1) p.2).map (fun q => (bitsToNat q.1, q.2)))

theorem lt_two_pow_coinsByteLen (v : Nat) : v < 2 ^ (8 * coinsByteLen v) := by
  by_cases h0 : v = 0
  · subst h0
    exact pow_pos (by norm_num) _
  · have hb : v < 2 ^ bitsForNumber v := by
      rw [bitsForNumber, if_neg h0]
      exact Nat.lt_log2_self
    have h8 : bitsForNumber v ≤ 8 * coinsByteLen v := by
      rw [coinsByteLen]
      omega
    exact lt_of_lt_of_le hb (Nat.pow_le_pow_right (by norm_num) h8)

theorem coinsByteLen_lt_16 {v : Nat} (h : v < 2 ^ 120) : coinsByteLen v < 16 := by
  by_cases h0 : v = 0
  · subst h0
    simp [coinsByteLen, bitsForNumber]
  · have hlog : Nat.log2 v < 120 := (Nat.log2_lt h0).mpr h
    rw [coinsByteLen, bitsForNumber, if_neg h0]
    omega

theorem storeCoinsB_eq {v : Nat} (hv : v < 2 ^ 120) :
    storeCoinsB v = some (coinsBits v) := by
  rw [storeCoinsB, if_pos (coinsByteLen_lt_16 hv)]

theorem loadCoinsS_of_store {δ : Type} {v : Nat} {bs : List Bool}
    (hs : storeCoinsB v = some bs) (rest : List (Seg δ)) :
    loadCoinsS (bs.map Seg.b ++ rest) = some (v, rest) := by
  by_cases h : coinsByteLen v < 16
  · rw [storeCoinsB, if_pos h] at hs
    obtain rfl : coinsBits v = bs := Option.some.inj hs
    rw [loadCoinsS, coinsBits, List.map_append, List.append_assoc]
    rw [takeBits_append_w 4 _ (length_natToBits 4 _) _]
    have h4 : coinsByteLen v < 2 ^ 4 := by
      norm_num
      omega
    simp only [Option.some_bind]
    rw [bitsToNat_natToBits 4 _ h4]
    rw [takeBits_append_w _ _ (length_natToBits _ _) _]
    simp [bitsToNat_natToBits _ _ (lt_two_pow_coinsByteLen v)]
  · rw [storeCoinsB, if_neg h] at hs
    cases hs

/-- `builder.storeAddress(a)` for an internal address: tag bits `100`
(`addr_std`, no anycast), 8-bit workchain, 256-bit hash. -/
def storeAddressB (a : Address) : Option (List Bool) :=
  if a.workchain < 2 ^ 8 ∧ a.hash < 2 ^ 256 then
    some ([true, false, false] ++ natToBits 8 a.workchain ++ natToBits 256 a.hash)
  else none

/-- `slice.loadAddress()`. -/
def loadAddressS {δ : Type} (s : List (Seg δ)) : Option (Address × List (Seg δ)) :=
  (takeBits 3 s).bind (fun p =>
    if p.1 = [true, false, false] then
      (takeBits 8 p.2).bind (fun q =>
        (takeBits 256 q.2).map (fun r => (⟨bitsToNat q.1, bitsToNat r.1⟩, r.2)))
    else none)

theorem loadAddressS_of_store {δ : Type} {a : Address} {bs : List Bool}
    (hs : storeAddressB a = some bs) (rest : List (Seg δ)) :
    loadAddressS (bs.map Seg.b ++ rest) = some (a, rest) := by
  by_cases h : a.workchain < 2 ^ 8 ∧ a.hash < 2 ^ 256
  · rw [storeAddressB, if_pos h] at hs
    obtain rfl := Option.some.inj hs
    rw [loadAddressS, List.map_append, List.map_append, List.append_assoc,
      List.append_assoc]
    rw [takeBits_append_w 3 [true, false, false] rfl _]
    simp only [Option.some_bind, if_pos]
    rw [takeBits_append_w 8 _ (length_natToBits 8 _) _]
    simp only [Option.some_bind]
    rw [takeBits_append_w 256 _ (length_natToBits 256 _) _]
    simp [bitsToNat_natToBits 8 _ h.1, bitsToNat_natToBits 256 _ h.2]
  · rw [storeAddressB, if_neg h] at hs
    cases hs

/-- `builder.storeDict(es)`: presence bit, then for a non-empty dictionary a
reference carrying the entries (keys with their serialized values). -/
def storeDictE {κ ω : Type} (es : List (κ × ω)) : List (Seg (List (κ × ω))) :=
  if es.isEmpty then [Seg.b false] else [Seg.b true, Seg.ref es]

/-- `Dictionary.load`'s maybe-ref read. -/
def loadDictE {κ ω : Type} :
    List (Seg (List (κ × ω))) → Option (List (κ × ω) × List (Seg (List (κ × ω))))
  | Seg.b false :: rest => some ([], rest)
  | Seg.b true :: Seg.ref es :: rest => some (es, rest)
  | _ => none

theorem loadDictE_store {κ ω : Type} (es : List (κ × ω))
    (rest : List (Seg (List (κ × ω)))) :
    loadDictE (storeDictE es ++ rest) = some (es, rest) := by
  cases es with
  | nil => rfl
  | cons hd tl => rfl

theorem mapM_eq_map {α β : Type} (f : α → Option β) (g : α → β) (l : List α)
    (h : ∀ x ∈ l, f x = some (g x)) : l.mapM f = some (l.map g) := by
  induction l with
  | nil => rfl
  | cons hd tl ih =>
    rw [List.mapM_cons, h hd (List.mem_cons_self _ _),
      ih (fun x hx => h x (List.mem_cons_of_mem _ hx))]
    rfl

/-- The wrapper's `Draw` record (`wrappers/RandomWin.ts` lines 14-20). -/
structure Draw where
  minEntryAmount : Nat
  entryAmountLimit : Nat
  poolSum : Nat
  participantCounter : Nat
  participants : List (Address × Nat)
deriving Repr, DecidableEq

/-- Values representable by the dictionary/`storeCoins` coin codec. -/
abbrev coinsValid (v : Nat) : Prop := v < 2 ^ 120

/-- Addresses representable by `storeAddress` / the address key codec. -/
abbrev addressValid (a : Address) : Prop := a.workchain < 2 ^ 8 ∧ a.hash < 2 ^ 256

/-- A `Draw` representable by `DrawValue.serialize`. -/
abbrev drawValid (d : Draw) : Prop :=
  coinsValid d.minEntryAmount ∧ coinsValid d.entryAmountLimit ∧ coinsValid d.poolSum ∧
  d.participantCounter < 2 ^ 32 ∧
  ∀ p ∈ d.participants, addressValid p.1 ∧ coinsValid p.2

/-- The stream carried by a participants-dictionary leaf: address keys and
`CoinsValue`-serialized stakes. -/
abbrev Seg1 := Seg (List (Address × List Bool))

/-- The stream of the storage cell: bits plus the draws-dictionary reference
whose values are `DrawValue`-serialized streams. -/
abbrev Seg0 := Seg (List (Nat × List Seg1))

/-- `CoinsValue.serialize` (`wrappers/RandomWin.ts` lines 34-37). -/
def CoinsValue.serialize (src : Nat) : Option (List Bool) := storeCoinsB src

/-- `CoinsValue.parse` (`wrappers/RandomWin.ts` lines 38-42): `loadCoins`
followed by `endParse`. -/
def CoinsValue.parse (s : List Bool) : Option Nat :=
  (@loadCoinsS Unit (s.map Seg.b)).bind (fun p => if p.2 = [] then some p.1 else none)

theorem CoinsValue.parse_coinsBits {v : Nat} (hv : v < 2 ^ 120) :
    CoinsValue.parse (coinsBits v) = some v := by
  have h := @loadCoinsS_of_store Unit v (coinsBits v) (storeCoinsB_eq hv) []
  rw [List.append_nil] at h
  rw [CoinsValue.parse, h]
  simp

/-- One serialized participants-dictionary entry. -/
def partEntry (p : Address × Nat) : Address × List Bool := (p.1, coinsBits p.2)

/-- `DrawValue.serialize` (`wrappers/RandomWin.ts` lines 45-52): three coin
fields, the 32-bit counter, then the participants dictionary with
`CoinsValue` values (address keys must be codec-valid). -/
def DrawValue.serialize (src : Draw) : Option (List Seg1) := do
  let b1 ← storeCoinsB src.minEntryAmount
  let b2 ← storeCoinsB src.entryAmountLimit
  let b3 ← storeCoinsB src.poolSum
  let b4 ← storeUintB src.participantCounter 32
  let entries ← src.participants.mapM (fun p =>
    if addressValid p.1 then
      (CoinsValue.serialize p.2).map (fun vb => (p.1, vb))
    else none)
  pure (((b1 ++ b2 ++ b3 ++ b4).map Seg.b) ++ storeDictE entries)

/-- `DrawValue.parse` (`wrappers/RandomWin.ts` lines 53-61): read the fields
in order, load the participants dictionary, then `endParse`. -/
def DrawValue.parse (s : List Seg1) : Option Draw :=
  (loadCoinsS s).bind fun p1 =>
  (loadCoinsS p1.2).bind fun p2 =>
  (loadCoinsS p2.2).bind fun p3 =>
  (loadUintS 32 p3.2).bind fun p4 =>
  (loadDictE p4.2).bind fun p5 =>
  (p5.1.mapM (fun q => (CoinsValue.parse q.2).map (fun c => (q.1, c)))).bind fun parts =>
  if p5.2 = [] then some ⟨p1.1, p2.1, p3.1, p4.1, parts⟩ else none

theorem map_eq_self {α : Type} (f : α → α) (l : List α) (h : ∀ x ∈ l, f x = x) :
    l.map f = l := by
  induction l with
  | nil => rfl
  | cons hd tl ih =>
    rw [List.map_cons, h hd (List.mem_cons_self _ _),
      ih (fun x hx => h x (List.mem_cons_of_mem _ hx))]

theorem storeUintB_eq {v w : Nat} (h : v < 2 ^ w) :
    storeUintB v w = some (natToBits w v) := by
  rw [storeUintB, if_pos h]

/-- The canonical serialized form of a valid `Draw`. -/
def drawSegs (d : Draw) : List Seg1 :=
  ((coinsBits d.minEntryAmount ++ coinsBits d.entryAmountLimit ++ coinsBits d.poolSum ++
    natToBits 32 d.participantCounter).map Seg.b) ++
  storeDictE (d.participants.map partEntry)

theorem DrawValue.serialize_eq {d : Draw} (hd : drawValid d) :
    DrawValue.serialize d = some (drawSegs d) := by
  obtain ⟨hv1, hv2, hv3, hc, hps⟩ := hd
  have hmap : d.participants.mapM (fun p =>
      if addressValid p.1 then
        (CoinsValue.serialize p.2).map (fun vb => (p.1, vb))
      else none) = some (d.participants.map partEntry) := by
    apply mapM_eq_map
    intro p hp
    rw [if_pos (hps p hp).1, CoinsValue.serialize, storeCoinsB_eq (hps p hp).2]
    rfl
  rw [DrawValue.serialize]
  rw [storeCoinsB_eq hv1, storeCoinsB_eq hv2, storeCoinsB_eq hv3, storeUintB_eq hc, hmap]
  rfl

theorem loadDictE_store_nil {κ ω : Type} (es : List (κ × ω)) :
    loadDictE (storeDictE es) = some (es, []) := by
  have h := loadDictE_store es []
  rwa [List.append_nil] at h

theorem DrawValue.parse_drawSegs {d : Draw} (hd : drawValid d) :
    DrawValue.parse (drawSegs d) = some d := by
  obtain ⟨hv1, hv2, hv3, hc, hps⟩ := hd
  rw [DrawValue.parse, drawSegs]
  simp only [List.map_append, List.append_assoc]
  rw [loadCoinsS_of_store (storeCoinsB_eq hv1)]
  simp only [Option.some_bind]
  rw [loadCoinsS_of_store (storeCoinsB_eq hv2)]
  simp only [Option.some_bind]
  rw [loadCoinsS_of_store (storeCoinsB_eq hv3)]
  simp only [Option.some_bind]
  rw [loadUintS_of_store (storeUintB_eq hc)]
  simp only [Option.some_bind]
  rw [loadDictE_store_nil]
  simp only [Option.some_bind]
  have hper : ∀ q ∈ d.participants.map partEntry,
      (fun q : Address × List Bool => (CoinsValue.parse q.2).map (fun c => (q.1, c))) q =
      some ((fun q : Address × List Bool => (q.1, (CoinsValue.parse q.2).getD 0)) q) := by
    intro q hq
    obtain ⟨p, hp, rfl⟩ := List.mem_map.mp hq
    simp [partEntry, CoinsValue.parse_coinsBits (hps p hp).2]
  have hmapM : (d.participants.map partEntry).mapM
      (fun q => (CoinsValue.parse q.2).map (fun c => (q.1, c))) =
      some d.participants := by
    rw [mapM_eq_map _ _ _ hper, List.map_map]
    congr 1
    apply map_eq_self
    intro p hp
    simp [partEntry, CoinsValue.parse_coinsBits (hps p hp).2]
  rw [hmapM]
  rfl

/-- The wrapper's `RandomWinConfig` (`wrappers/RandomWin.ts` lines 22-26).
The optional `minCoinsToDraw` field records the extra property the deploy
script (`scripts/deployRandomWin.ts`) passes in its config literal; the
encoder never reads it. -/
structure RandomWinConfig where
  owner : Address
  fee : Nat
  drawMap : List (Nat × Draw)
  minCoinsToDraw : Option Nat := none
deriving Repr, DecidableEq

/-- The wrapper's `RandomWinStorage` (`wrappers/RandomWin.ts` lines 28-32). -/
structure RandomWinStorage where
  owner : Address
  fee : Nat
  drawMap : List (Nat × Draw)
deriving Repr, DecidableEq

/-- `randomWinConfigToCell` (`wrappers/RandomWin.ts` lines 64-70): store the
owner address, the 16-bit fee, and the draws dictionary (32-bit uint keys,
`DrawValue` values). -/
def randomWinConfigToCell (config : RandomWinConfig) : Option (List Seg0) := do
  let ab ← storeAddressB config.owner
  let fb ← storeUintB config.fee 16
  let entries ← config.drawMap.mapM (fun p =>
    if p.1 < 2 ^ 32 then (DrawValue.serialize p.2).map (fun sv => (p.1, sv)) else none)
  pure ((ab ++ fb).map Seg.b ++ storeDictE entries)

/-- `randomWinStorageFromCell` (`wrappers/RandomWin.ts` lines 72-79): read
the owner address, 16-bit fee and draws dictionary, then `endParse`. -/
def randomWinStorageFromCell (data : List Seg0) : Option RandomWinStorage :=
  (loadAddressS data).bind fun p1 =>
  (loadUintS 16 p1.2).bind fun p2 =>
  (loadDictE p2.2).bind fun p3 =>
  (p3.1.mapM (fun q => (DrawValue.parse q.2).map (fun dv => (q.1, dv)))).bind fun dm =>
  if p3.2.isEmpty then some ⟨p1.1, p2.1, dm⟩ else none

/-- A config representable by the storage cell encoders. -/
abbrev configValid (c : RandomWinConfig) : Prop :=
  addressValid c.owner ∧ c.fee < 2 ^ 16 ∧
  ∀ p ∈ c.drawMap, p.1 < 2 ^ 32 ∧ drawValid p.2

/-- The bit string `storeAddress` writes for a valid internal address. -/
def addrBits (a : Address) : List Bool :=
  [true, false, false] ++ natToBits 8 a.workchain ++ natToBits 256 a.hash

theorem storeAddressB_eq {a : Address} (h : addressValid a) :
    storeAddressB a = some (addrBits a) := by
  rw [storeAddressB, if_pos h]
  rfl

/-- The canonical storage cell of a valid config. -/
def configSegs (c : RandomWinConfig) : List Seg0 :=
  ((addrBits c.owner ++ natToBits 16 c.fee).map Seg.b) ++
  storeDictE (c.drawMap.map (fun p => (p.1, drawSegs p.2)))

theorem randomWinConfigToCell_eq {c : RandomWinConfig} (hc : configValid c) :
    randomWinConfigToCell c = some (configSegs c) := by
  obtain ⟨ho, hf, hm⟩ := hc
  have hmap : c.drawMap.mapM (fun p =>
      if p.1 < 2 ^ 32 then (DrawValue.serialize p.2).map (fun sv => (p.1, sv)) else none) =
      some (c.drawMap.map (fun p => (p.1, drawSegs p.2))) := by
    apply mapM_eq_map
    intro p hp
    rw [if_pos (hm p hp).1, DrawValue.serialize_eq (hm p hp).2]
    rfl
  rw [randomWinConfigToCell, storeAddressB_eq ho, storeUintB_eq hf, hmap]
  rfl

theorem randomWinStorageFromCell_configSegs {c : RandomWinConfig} (hc : configValid c) :
    randomWinStorageFromCell (configSegs c) = some ⟨c.owner, c.fee, c.drawMap⟩ := by
  obtain ⟨ho, hf, hm⟩ := hc
  rw [randomWinStorageFromCell, configSegs]
  simp only [List.map_append, List.append_assoc]
  rw [loadAddressS_of_store (storeAddressB_eq ho)]
  simp only [Option.some_bind]
  rw [loadUintS_of_store (storeUintB_eq hf)]
  simp only [Option.some_bind]
  rw [loadDictE_store_nil]
  simp only [Option.some_bind]
  have hper : ∀ q ∈ c.drawMap.map (fun p => (p.1, drawSegs p.2)),
      (fun q : Nat × List Seg1 => (DrawValue.parse q.2).map (fun dv => (q.1, dv))) q =
      some ((fun q : Nat × List Seg1 =>
        (q.1, (DrawValue.parse q.2).getD ⟨0, 0, 0, 0, []⟩)) q) := by
    intro q hq
    obtain ⟨p, hp, rfl⟩ := List.mem_map.mp hq
    simp [DrawValue.parse_drawSegs (hm p hp).2]
  rw [mapM_eq_map _ _ _ hper, List.map_map]
  have hmaps : c.drawMap.map ((fun q : Nat × List Seg1 =>
      (q.1, (DrawValue.parse q.2).getD ⟨0, 0, 0, 0, []⟩)) ∘
      (fun p => (p.1, drawSegs p.2))) = c.drawMap := by
    apply map_eq_self
    intro p hp
    simp [DrawValue.parse_drawSegs (hm p hp).2]
  rw [hmaps]
  rfl

/-- C9: serialization round-trips.  For every representable
`RandomWinConfig` (owner address valid, fee fitting 16 bits, draw ids
fitting 32 bits, draws representable), decoding the cell built by
`randomWinConfigToCell` with `randomWinStorageFromCell` returns exactly the
config's `owner`, `fee` and `drawMap`; likewise `DrawValue.parse` inverts
`DrawValue.serialize` on every representable `Draw`, and `CoinsValue.parse`
inverts `CoinsValue.serialize` on every coin amount below 2^120. -/
theorem claim9_serialization_round_trip (c : RandomWinConfig) (d : Draw) (v : Nat)
    (hc : configValid c) (hd : drawValid d) (hv : coinsValid v) :
    (∃ cell, randomWinConfigToCell c = some cell ∧
      randomWinStorageFromCell cell = some ⟨c.owner, c.fee, c.drawMap⟩) ∧
    (∃ sd, DrawValue.serialize d = some sd ∧ DrawValue.parse sd = some d) ∧
    (∃ sb, CoinsValue.serialize v = some sb ∧ CoinsValue.parse sb = some v) :=
  ⟨⟨configSegs c, randomWinConfigToCell_eq hc, randomWinStorageFromCell_configSegs hc⟩,
   ⟨drawSegs d, DrawValue.serialize_eq hd, DrawValue.parse_drawSegs hd⟩,
   ⟨coinsBits v, storeCoinsB_eq hv, CoinsValue.parse_coinsBits hv⟩⟩

theorem claim9_serialization_round_trip_witness :
    (∃ cell, randomWinConfigToCell ⟨⟨0, 3⟩, 1, [(1, ⟨5, 10, 7, 1, [(⟨0, 4⟩, 6)]⟩)], none⟩ =
        some cell ∧
      randomWinStorageFromCell cell =
        some ⟨⟨0, 3⟩, 1, [(1, ⟨5, 10, 7, 1, [(⟨0, 4⟩, 6)]⟩)]⟩) ∧
    (∃ sd, DrawValue.serialize ⟨5, 10, 7, 1, [(⟨0, 4⟩, 6)]⟩ = some sd ∧
      DrawValue.parse sd = some ⟨5, 10, 7, 1, [(⟨0, 4⟩, 6)]⟩) ∧
    (∃ sb, CoinsValue.serialize 9 = some sb ∧ CoinsValue.parse sb = some 9) :=
  claim9_serialization_round_trip ⟨⟨0, 3⟩, 1, [(1, ⟨5, 10, 7, 1, [(⟨0, 4⟩, 6)]⟩)], none⟩
    ⟨5, 10, 7, 1, [(⟨0, 4⟩, 6)]⟩ 9
    (by decide) (by decide) (by decide)

/-- C10: the storage cell built by `randomWinConfigToCell` depends only on
the `owner`, `fee` and `drawMap` fields of its argument: any two configs
agreeing on those three fields produce identical cells; in particular the
extra `minCoinsToDraw` field the deploy script passes has no effect on the
deployed storage cell. -/
theorem claim10_toCell_ignores_extra_fields (c1 c2 : RandomWinConfig)
    (h1 : c1.owner = c2.owner) (h2 : c1.fee = c2.fee) (h3 : c1.drawMap = c2.drawMap) :
    randomWinConfigToCell c1 = randomWinConfigToCell c2 ∧
    (∀ a m, randomWinConfigToCell ⟨a, 0, [], m⟩ =
      randomWinConfigToCell ⟨a, 0, [], none⟩) := by
  constructor
  · rw [randomWinConfigToCell, randomWinConfigToCell, h1, h2, h3]
  · intro a m
    rfl

theorem claim10_toCell_ignores_extra_fields_witness :
    randomWinConfigToCell ⟨⟨0, 5⟩, 0, [], some 1000000000⟩ =
      randomWinConfigToCell ⟨⟨0, 5⟩, 0, [], none⟩ :=
  (claim10_toCell_ignores_extra_fields ⟨⟨0, 5⟩, 0, [], some 1000000000⟩
    ⟨⟨0, 5⟩, 0, [], none⟩ rfl rfl rfl).1

end Wrapper

end RandomDraw
